import Mathlib

/-!
Verification of mruby-fast-json (src/mrb_fastjson.cpp) against its
natural-language specification.

The development shallowly embeds the C++ binding layer of the gem:

* `need_allocation`, `simdjson_safe_view_from_mrb_string` — the buffer
  manager (copy vs. zero-copy decision, freezing discipline);
* the error-code taxonomy (`ErrCode`) and `is_lookup_miss`;
* the lazy-document state machine: `mrb_json_doc_get` (liveness check and
  rehydration) and the navigation entry points `mrb_json_doc_aref`,
  `mrb_json_doc_fetch`, `mrb_json_doc_at_path_with_wildcard`,
  `objectEachCollect`;
* the encoder `jsonEncode` (`json_encode` and friends) and
  `mrb_json_dump`;
* the eager parse pipeline `JSON.parse` (padded view → scan engine →
  `convert_element`).

The simdjson scan engine itself is an external dependency that the spec
treats as a black box implementing the JSON grammar; wherever its behavior
is load-bearing (the grammar, number classification, string escaping, the
wildcard path resolver) the corresponding definition carries a doc comment
starting `Modelled from the spec:`.  Everything else is translated directly
from the source file.  Host byte strings are modelled as `List Char`.
-/

/-- SIMDJSON_PADDING: over-read padding the engine requires past the logical
end of every input buffer (64 bytes in simdjson). -/
def SIMDJSON_PADDING : Nat := 64

/-- SIZE_MAX of the platform, used by the overflow guard in the buffer
manager (model: 64-bit platform). -/
def SIZE_MAX : Nat := 2 ^ 64 - 1

/-- Error codes of the scan engine, one constructor per `case` of
`raise_simdjson_error` in the source (`SUCCESS` is represented by the `ok`
side of `Except`, not by a code). -/
inductive ErrCode where
  | unclosedString
  | stringError
  | unescapedChars
  | tapeError
  | depthError
  | incompleteArrayOrObject
  | trailingContent
  | memalloc
  | capacity
  | outOfCapacity
  | insufficientPadding
  | numberError
  | bigintError
  | numberOutOfRange
  | tAtomError
  | fAtomError
  | nAtomError
  | utf8Error
  | empty
  | uninitialized
  | parserInUse
  | scalarDocumentAsValue
  | incorrectType
  | noSuchField
  | indexOutOfBounds
  | outOfBounds
  | outOfOrderIteration
  | ioError
  | invalidJsonPointer
  | invalidUriFragment
  | unsupportedArchitecture
  | unexpectedError
deriving DecidableEq, Repr

/-- Translation of `is_lookup_miss` (source lines 769-776): the four engine
codes a lookup API swallows into an absence signal. -/
def is_lookup_miss (code : ErrCode) : Bool :=
  code = .noSuchField ||
  code = .outOfBounds ||
  code = .indexOutOfBounds ||
  code = .incorrectType

/-- Errors observable from ruby: an engine error raised through
`raise_simdjson_error` (carrying its code, hence the engine's message), or
one of the mruby-level exceptions raised directly by the binding
(`E_KEY_ERROR`, `E_INDEX_ERROR`, `E_TYPE_ERROR`, `E_RUNTIME_ERROR`). -/
inductive RubyError where
  | engine (code : ErrCode)
  | keyError
  | indexError
  | typeError
  | runtimeError
deriving DecidableEq, Repr

/-- Translation of `need_allocation` (source lines 39-56).  `debug` models
the `MRB_DEBUG` build flag, `addr` the address of the first byte of the
buffer, `len` the logical length, `capa` the physical capacity.  Returns
`true` when a private padded copy must be allocated, `false` when zero-copy
is safe. -/
def need_allocation (debug : Bool) (addr len capa pagesize : Nat) : Bool :=
  if debug then true
  else
    let endAddr := addr + len - 1
    let offset := endAddr % pagesize
    if offset + SIMDJSON_PADDING < pagesize then false
    else if capa ≥ len + SIMDJSON_PADDING then false
    else true

/-- Host-side mruby string as the buffer manager sees it: the address of its
byte storage, its logical length, its physical capacity, and its frozen
flag. -/
structure MrbString where
  addr : Nat
  len : Nat
  capa : Nat
  frozen : Bool
deriving DecidableEq, Repr

/-- Provenance of the bytes handed to the scan engine: a view over the host
string's own storage, or a private padded copy. -/
inductive ViewSrc where
  | ownBytes
  | copy
deriving DecidableEq, Repr

/-- Outcome of view construction: where the engine's bytes come from, the
host string as it is left afterwards (possibly resized and/or frozen), and
the view's logical length and claimed capacity. -/
structure ViewResult where
  src : ViewSrc
  str : MrbString
  viewLen : Nat
  viewCapa : Nat
deriving DecidableEq, Repr

/-- Translation of `simdjson_safe_view_from_mrb_string` (source lines
58-91).  `zeroCopy` models the process-wide `zero_copy_parsing` flag,
`debug` the `MRB_DEBUG` build flag. -/
def simdjson_safe_view_from_mrb_string (zeroCopy debug : Bool)
    (pagesize : Nat) (s : MrbString) : Except RubyError ViewResult :=
  let len := s.len
  if zeroCopy && !(need_allocation debug s.addr len s.capa pagesize) then
    .ok ⟨.ownBytes, { s with frozen := true }, len, len + SIMDJSON_PADDING⟩
  else if s.frozen then
    .ok ⟨.copy, s, len, len + SIMDJSON_PADDING⟩
  else if len > SIZE_MAX - SIMDJSON_PADDING then
    .error .runtimeError
  else
    let required := len + SIMDJSON_PADDING
    if s.capa < required then
      .ok ⟨.ownBytes, { s with capa := required, frozen := true }, len, required⟩
    else
      .ok ⟨.ownBytes, s, len, required⟩

/-- Host value model (the mruby values the binding produces and consumes):
nil, booleans, integers (mruby integers are exact; see the number pipeline
below), floats as decimal mantissa/exponent pairs, byte strings, symbols,
arrays, hashes (insertion-ordered key/value pair lists), and `other` for
every remaining mruby type, carrying the result of `to_s` on it. -/
inductive RValue where
  | nil
  | bool (b : Bool)
  | int (n : Int)
  | float (m : Int) (e : Int)
  | str (s : List Char)
  | sym (s : List Char)
  | ary (elems : List RValue)
  | hash (pairs : List (RValue × RValue))
  | other (toS : List Char)

/-- Decimal digit character for a digit value below ten. -/
def digitChar (d : Nat) : Char := Char.ofNat (48 + d)

/-- Numeric value of a decimal digit character. -/
def charDigit (c : Char) : Nat := c.toNat - 48

/-- Decimal digit list (most significant first) of a positive natural, with
`fuel` bounding the recursion depth. -/
def printNatAux : Nat → Nat → List Char
  | 0, _ => []
  | fuel + 1, n =>
    if n < 10 then [digitChar n]
    else printNatAux fuel (n / 10) ++ [digitChar (n % 10)]

/-- Decimal text of a natural number. -/
def printNat (n : Nat) : List Char := printNatAux (n + 1) n

/-- Decimal text of an integer (sign-and-magnitude), as
`builder.append(int64_t)` renders it. -/
def printInt : Int → List Char
  | .ofNat n => printNat n
  | .negSucc m => '-' :: printNat (m + 1)

/-- Digit-list scanner: split a character list at its first non-digit. -/
def takeDigits : List Char → List Char × List Char
  | [] => ([], [])
  | c :: cs =>
    if c.isDigit then
      let p := takeDigits cs
      (c :: p.1, p.2)
    else ([], c :: cs)

/-- Value of a (most-significant-first) digit-character list. -/
def digitsToNat (ds : List Char) : Nat :=
  ds.foldl (fun a c => a * 10 + charDigit c) 0

/-- Lower-case hex digit character for a value below sixteen. -/
def hexDigitChar (n : Nat) : Char :=
  if n < 10 then Char.ofNat (48 + n) else Char.ofNat (87 + n)

/-- Hex digit value of a character (digits and lower-case letters). -/
def hexVal (c : Char) : Option Nat :=
  if 48 ≤ c.toNat ∧ c.toNat ≤ 57 then some (c.toNat - 48)
  else if 97 ≤ c.toNat ∧ c.toNat ≤ 102 then some (c.toNat - 87)
  else none

/-- Modelled from the spec: the engine-side string escaper
(`escape_and_append_with_quotes` of the simdjson string builder).  Escapes
the quote and backslash with a backslash and control characters as
`\u00XX`; every other character is passed through. -/
def escChar (c : Char) : List Char :=
  if c = '"' then ['\\', '"']
  else if c = '\\' then ['\\', '\\']
  else if c.toNat < 32 then
    '\\' :: 'u' :: '0' :: '0' ::
      [hexDigitChar (c.toNat / 16), hexDigitChar (c.toNat % 16)]
  else [c]

/-- Escape a whole string. -/
def escStr : List Char → List Char
  | [] => []
  | c :: cs => escChar c ++ escStr cs

/-- Decoding table for two-character escapes on the parse side. -/
def decodeEsc (e : Char) : Option Char :=
  if e = '"' ∨ e = '\\' ∨ e = '/' then some e
  else if e = 'n' then some '\n'
  else if e = 't' then some '\t'
  else if e = 'r' then some '\r'
  else if e = 'b' then some (Char.ofNat 8)
  else if e = 'f' then some (Char.ofNat 12)
  else none

/-- Modelled from the spec: the engine's string scanner, consuming the body
of a JSON string after its opening quote up to and including the closing
quote, returning the unescaped content and the unconsumed tail.  Raw
control characters are rejected (`UNESCAPED_CHARS`), modelled as `none`. -/
def parseStringBody : List Char → Option (List Char × List Char)
  | [] => none
  | c :: rest =>
    if c = '"' then some ([], rest)
    else if c = '\\' then
      match rest with
      | [] => none
      | e :: rest2 =>
        if e = 'u' then
          match rest2 with
          | h1 :: h2 :: h3 :: h4 :: rest3 =>
            match hexVal h1, hexVal h2, hexVal h3, hexVal h4 with
            | some a, some b, some x, some y =>
              (fun p => (Char.ofNat (((a * 16 + b) * 16 + x) * 16 + y) :: p.1, p.2)) <$>
                parseStringBody rest3
            | _, _, _, _ => none
          | _ => none
        else
          match decodeEsc e with
          | some d => (fun p => (d :: p.1, p.2)) <$> parseStringBody rest2
          | none => none
    else if c.toNat < 32 then none
    else (fun p => (c :: p.1, p.2)) <$> parseStringBody rest

/-- Number-type classification of the scan engine (`get_number_type`),
modelled from the spec's pinned int/bigint boundary rules: int64 range →
signed, (2^63, 2^64) → unsigned, beyond → big integer. -/
inductive NumType where
  | signedInteger
  | unsignedInteger
  | bigInteger
deriving DecidableEq, Repr

/-- Modelled from the spec: magnitude classification of an integer token. -/
def classifyIntMag (n : Int) : NumType :=
  if -(2 ^ 63) ≤ n ∧ n < 2 ^ 63 then .signedInteger
  else if 0 ≤ n ∧ n < 2 ^ 64 then .unsignedInteger
  else .bigInteger

/-- Translation of the integer arms of `convert_number_from_ondemand` /
`convert_element`: the signed path goes through `mrb_convert_number(int64)`,
the unsigned path through `mrb_convert_number(uint64)`, and the big-integer
path re-reads the raw token through `mrb_str_to_integer`; per the spec all
three deliver the exact host integer. -/
def convertIntegerToken (n : Int) : RValue :=
  match classifyIntMag n with
  | .signedInteger => .int n
  | .unsignedInteger => .int n
  | .bigInteger => .int n

/-- Scan an optionally-signed decimal integer off the front of the input. -/
def scanInt (input : List Char) : Option (Int × List Char) :=
  if input.head? = some '-' then
    match takeDigits input.tail with
    | ([], _) => none
    | (ds, r2) => some (-(digitsToNat ds : Int), r2)
  else
    match takeDigits input with
    | ([], _) => none
    | (ds, r2) => some ((digitsToNat ds : Int), r2)

/-- Modelled from the spec: the engine's number scanner combined with the
number conversion of the materializer.  A token with an exponent marker is
a double (host float, kept as exact mantissa/exponent); a plain integer
token is classified by magnitude and delivered exactly. -/
def parseNumber (input : List Char) : Option (RValue × List Char) :=
  match scanInt input with
  | none => none
  | some (m, r) =>
    if r.head? = some 'e' then
      match scanInt r.tail with
      | some (e2, r3) => some (.float m e2, r3)
      | none => none
    else some (convertIntegerToken m, r)

/-- Boundary condition for the number scanner: the trailing context must
not begin with a digit or an exponent marker (in encoder output it is
empty or starts with a separator or closing delimiter). -/
def numDelim (rest : List Char) : Prop :=
  ∀ c, rest.head? = some c → c.isDigit = false ∧ c ≠ 'e'

/-- Modelled from the spec: `mrb_obj_as_string` of the host runtime (the
`to_s` conversion).  Strings and symbols yield their own characters,
integers their decimal text, `other` carries its `to_s` text; the remaining
cases (never exercised by the claims) are modelled by their conventional
mruby renderings where simple and empty text otherwise. -/
def objAsString : RValue → List Char
  | .str s => s
  | .sym s => s
  | .int n => printInt n
  | .float m e => printInt m ++ 'e' :: printInt e
  | .bool true => "true".data
  | .bool false => "false".data
  | .nil => []
  | .ary _ => []
  | .hash _ => []
  | .other t => t

/-- Escape a string and wrap it in quotes
(`json_encode_string` / `escape_and_append_with_quotes`). -/
def encodeQuoted (s : List Char) : List Char := '"' :: (escStr s ++ ['"'])

mutual

/-- Translation of `json_encode` (source lines 1207-1240), dispatching on
the mruby type tag: `MRB_TT_FALSE` covers nil and false, then true,
symbol, float, integer, hash, array, string, and the default branch which
stringifies through `mrb_obj_as_string` and encodes like a string. -/
def jsonEncode : RValue → List Char
  | .nil => "null".data
  | .bool false => "false".data
  | .bool true => "true".data
  | .sym s => encodeQuoted s
  | .float m e => printInt m ++ 'e' :: printInt e
  | .int n => printInt n
  | .hash l => '\x7b' :: (encodePairs l ++ ['\x7d'])
  | .ary l => '[' :: (encodeElems l ++ [']'])
  | .str s => encodeQuoted s
  | .other t => encodeQuoted t

/-- Translation of `json_encode_array`: elements comma-joined. -/
def encodeElems : List RValue → List Char
  | [] => []
  | [v] => jsonEncode v
  | v :: vs => jsonEncode v ++ ',' :: encodeElems vs

/-- Translation of `json_encode_hash` / `dump_hash_cb`: each key is
stringified through `mrb_obj_as_string`, encoded like a string value, then
a colon and the encoded value, pairs comma-joined. -/
def encodePairs : List (RValue × RValue) → List Char
  | [] => []
  | [(k, v)] => encodeQuoted (objAsString k) ++ ':' :: jsonEncode v
  | (k, v) :: ps =>
    encodeQuoted (objAsString k) ++ ':' :: jsonEncode v ++ ',' :: encodePairs ps

end

mutual

/-- Structural size of a value, used as parser fuel. -/
def vsize : RValue → Nat
  | .ary l => 2 + lsize l
  | .hash l => 2 + psize l
  | _ => 1

/-- Structural size of an element list. -/
def lsize : List RValue → Nat
  | [] => 0
  | v :: vs => 1 + vsize v + lsize vs

/-- Structural size of a pair list. -/
def psize : List (RValue × RValue) → Nat
  | [] => 0
  | (_, v) :: ps => 1 + vsize v + psize ps

end

/-- Key membership among the string keys of a pair list. -/
def keyMem (s : List Char) : List (RValue × RValue) → Bool
  | [] => false
  | (k, _) :: ps =>
    (match k with
     | .str t => decide (t = s)
     | _ => false) || keyMem s ps

/-- Check that a key is a host string not occurring among the keys of the
remaining pairs. -/
def isStrKey : RValue → List (RValue × RValue) → Bool
  | .str s, ps => !keyMem s ps
  | _, _ => false

mutual

/-- Well-formed values of the round-trip claim: built from nil, booleans,
int64-range integers, floats, strings and nested arrays/objects whose keys
are strings, unique per object. -/
def wfOK : RValue → Bool
  | .nil => true
  | .bool _ => true
  | .int n => decide (-(2 ^ 63) ≤ n) && decide (n < 2 ^ 63)
  | .float _ _ => true
  | .str _ => true
  | .sym _ => false
  | .ary l => wfL l
  | .hash ps => wfP ps
  | .other _ => false

/-- Well-formed element lists. -/
def wfL : List RValue → Bool
  | [] => true
  | v :: vs => wfOK v && wfL vs

/-- Well-formed pair lists: string keys, no key repeated later, values
well-formed. -/
def wfP : List (RValue × RValue) → Bool
  | [] => true
  | (k, v) :: ps => isStrKey k ps && wfOK v && wfP ps

end

/-- Translation of `mrb_hash_set` on string keys: replace the value of an
existing equal key in place, else append the pair (insertion order, last
write wins). -/
def hashInsert : List (List Char × RValue) → List Char → RValue → List (List Char × RValue)
  | [], k, v => [(k, v)]
  | (k0, v0) :: ps, k, v =>
    if k0 = k then (k0, v) :: ps else (k0, v0) :: hashInsert ps k v

/-- Hash construction of `convert_object`: fold the parsed members through
`mrb_hash_set` and tag the keys as host strings. -/
def hashFromEntries (entries : List (List Char × RValue)) : List (RValue × RValue) :=
  (entries.foldl (fun h kv => hashInsert h kv.1 kv.2) []).map (fun q => (.str q.1, q.2))

/-- Keys of a pair list as plain strings (well-formed keys are `.str`). -/
def stripPairs (ps : List (RValue × RValue)) : List (List Char × RValue) :=
  ps.map (fun p => (objAsString p.1, p.2))

/-- Parse production selector: a single value, the tail of an array after
its opening bracket, or the tail of an object after its opening brace. -/
inductive PMode where
  | value
  | elems
  | membs
deriving DecidableEq, Repr

/-- Parse result: a value, an element list, or a member list. -/
inductive POut where
  | val (v : RValue)
  | elems (l : List RValue)
  | membs (l : List (List Char × RValue))

/-- Modelled from the spec: the scan engine consuming one JSON production
off the front of the input (the spec treats the engine as a black box
implementing the JSON grammar over a padded buffer), fused with the
recursive conversion of `convert_element` / `convert_array` /
`convert_object` (string keys, `symbolize_names` false): arrays become
ordered element lists, objects fold their members through `mrb_hash_set`,
scalars are converted by the engine's own type tag.  `fuel` bounds the
nesting depth; the top-level entry supplies more fuel than any input can
consume. -/
def parseF : Nat → PMode → List Char → Option (POut × List Char)
  | 0, _, _ => none
  | fuel + 1, .value, input =>
    match input with
    | [] => none
    | c :: r =>
      if c = 'n' then
        match r with
        | 'u' :: 'l' :: 'l' :: r2 => some (.val .nil, r2)
        | _ => none
      else if c = 't' then
        match r with
        | 'r' :: 'u' :: 'e' :: r2 => some (.val (.bool true), r2)
        | _ => none
      else if c = 'f' then
        match r with
        | 'a' :: 'l' :: 's' :: 'e' :: r2 => some (.val (.bool false), r2)
        | _ => none
      else if c = '"' then
        (parseStringBody r).map (fun p => (.val (.str p.1), p.2))
      else if c = '[' then
        match parseF fuel .elems r with
        | some (.elems l, r2) => some (.val (.ary l), r2)
        | _ => none
      else if c = '\x7b' then
        match parseF fuel .membs r with
        | some (.membs entries, r2) => some (.val (.hash (hashFromEntries entries)), r2)
        | _ => none
      else
        (parseNumber (c :: r)).map (fun p => (.val p.1, p.2))
  | fuel + 1, .elems, input =>
    match input with
    | [] => none
    | c :: r =>
      if c = ']' then some (.elems [], r)
      else
        match parseF fuel .value (c :: r) with
        | some (.val v, r2) =>
          match r2 with
          | ',' :: r3 =>
            if r3.head? = some ']' then none
            else
              match parseF fuel .elems r3 with
              | some (.elems l, r4) => some (.elems (v :: l), r4)
              | _ => none
          | ']' :: r3 => some (.elems [v], r3)
          | _ => none
        | _ => none
  | fuel + 1, .membs, input =>
    match input with
    | [] => none
    | c :: r =>
      if c = '\x7d' then some (.membs [], r)
      else if c = '"' then
        match parseStringBody r with
        | some (k, r2) =>
          (match r2 with
           | ':' :: r3 =>
             match parseF fuel .value r3 with
             | some (.val v, r4) =>
               (match r4 with
                | ',' :: r5 =>
                  if r5.head? = some '\x7d' then none
                  else
                    (match parseF fuel .membs r5 with
                     | some (.membs l, r6) => some (.membs ((k, v) :: l), r6)
                     | _ => none)
                | '\x7d' :: r5 => some (.membs [(k, v)], r5)
                | _ => none)
             | _ => none
           | _ => none)
        | none => none
      else none

/-- Translation of `mrb_json_parse` (source lines 294-306) over the
spec-modelled engine: build the padded view, run the scan engine
(`parseF` with ample fuel), raise on error, convert the tree.  The empty
input yields `EMPTY`, leftover input yields `TRAILING_CONTENT`, any other
scan failure is reported as a syntax (tape) error. -/
def JSON.parse (text : List Char) : Except ErrCode RValue :=
  if text = [] then .error .empty
  else
    match parseF (2 * text.length + 2) .value text with
    | some (.val v, []) => .ok v
    | some (.val _, _ :: _) => .error .trailingContent
    | some (_, _) => .error .tapeError
    | none => .error .tapeError

/-- Modelled from the spec: UTF-8 validation of the assembled output
(`string_builder.validate_unicode`).  Host strings are modelled as lists
of unicode scalar values, which are always valid. -/
def validate_unicode (_ : List Char) : Bool := true

/-- Translation of `mrb_json_dump` (source lines 1242-1252): encode, then
validate UTF-8 exactly once at the end, raising `E_JSON_UTF8_ERROR` on
failure. -/
def mrb_json_dump (v : RValue) : Except RubyError (List Char) :=
  let sb := jsonEncode v
  if validate_unicode sb then .ok sb else .error (.engine .utf8Error)

/-- Engine-side behavior of `parser->iterate(*view)` on the retained view,
treated as a black box: either it succeeds (producing a fresh live cursor
over the view's root) or it fails with an engine code (for example
`PARSER_IN_USE` or a capacity error).  `freshRoot` is the document content
a successful iteration exposes. -/
structure EngineParser where
  failure : Option ErrCode
  freshRoot : RValue

/-- Engine-side cursor state of an `ondemand::document`: whether it is
alive (`doc->is_alive()`) and the content it currently exposes. -/
structure DocCell where
  alive : Bool
  root : RValue

/-- A `JSON::Document` binding: the C++ document cell plus the two ivars
stored at construction for rehydration (`@view` is retained inside the
parser model, `@parser` is the parser model itself). -/
structure DocBinding where
  cell : DocCell
  engineParser : EngineParser

/-- Translation of `mrb_json_doc_get` (source lines 744-767): return the
cell if alive, otherwise re-run `iterate` on the retained view/parser; on
success continue with the fresh cell, otherwise raise that failure through
`raise_simdjson_error`. -/
def mrb_json_doc_get (d : DocBinding) : Except ErrCode DocCell :=
  if d.cell.alive then .ok d.cell
  else
    match d.engineParser.failure with
    | none => .ok ⟨true, d.engineParser.freshRoot⟩
    | some e => .error e

/-- A navigation entry point of the binding: first `mrb_json_doc_get`
(liveness check plus at most one rehydration), then the operation itself,
run exactly once on the obtained cell. -/
def navigate (d : DocBinding) (op : DocCell → Except RubyError RValue) :
    Except RubyError RValue :=
  match mrb_json_doc_get d with
  | .ok c => op c
  | .error e => .error (.engine e)

/-- Modelled from the spec: engine lookup `(*doc)[key]` — ordered field
search among an object's pairs; a missing field is `NO_SUCH_FIELD` (a
NavigationMiss). -/
def findVal : List (RValue × RValue) → List Char → Except ErrCode RValue
  | [], _ => .error .noSuchField
  | (key, v) :: ps, k =>
    match key with
    | .str s => if s = k then .ok v else findVal ps k
    | _ => findVal ps k

/-- Keyed lookup dispatch of `(*doc)[key]`: field search on an object,
lookup-context type mismatch `INCORRECT_TYPE` on anything else. -/
def engineKeyLookup (doc : RValue) (k : List Char) : Except ErrCode RValue :=
  match doc with
  | .hash pairs => findVal pairs k
  | _ => .error .incorrectType

/-- Modelled from the spec: engine lookup `doc->at(index)` — an indexed
array lookup; out of range is `INDEX_OUT_OF_BOUNDS`, a lookup on a
non-array is `INCORRECT_TYPE` (both NavigationMiss).  The source casts the
mruby integer through `size_t`, so a negative index wraps to a huge
out-of-range value. -/
def engineAt (doc : RValue) (i : Int) : Except ErrCode RValue :=
  match doc with
  | .ary l =>
    match i with
    | .ofNat n =>
      match l.get? n with
      | some v => .ok v
      | none => .error .indexOutOfBounds
    | .negSucc _ => .error .indexOutOfBounds
  | _ => .error .incorrectType

/-- Translation of `mrb_json_doc_aref` (source lines 778-795): the
argument format string `"S"` accepts only a host string (anything else
raises `E_TYPE_ERROR` from `mrb_get_args`), then liveness/rehydration,
then the keyed lookup; a NavigationMiss code yields nil, any other code
is raised. -/
def mrb_json_doc_aref (d : DocBinding) (arg : RValue) : Except RubyError RValue :=
  match arg with
  | .str k =>
    navigate d (fun c =>
      match engineKeyLookup c.root k with
      | .ok v => .ok v
      | .error e => if is_lookup_miss e then .ok .nil else .error (.engine e))
  | _ => .error .typeError

/-- Translation of `mrb_json_doc_fetch` (source lines 797-847): any first
argument, optional default, optional fallback block.  After
liveness/rehydration, an integer argument goes through `doc->at`, any
other argument is stringified with `mrb_obj_as_string` and goes through
the keyed lookup.  On a NavigationMiss the supplied default wins, else the
fallback block is invoked with the argument, else `E_INDEX_ERROR` /
`E_KEY_ERROR` is raised; every other engine code is raised. -/
def mrb_json_doc_fetch (d : DocBinding) (arg : RValue)
    (deflt : Option RValue) (block : Option (RValue → RValue)) :
    Except RubyError RValue :=
  navigate d (fun c =>
    match arg with
    | .int i =>
      match engineAt c.root i with
      | .ok v => .ok v
      | .error e =>
        if is_lookup_miss e then
          match deflt with
          | some dv => .ok dv
          | none =>
            match block with
            | some b => .ok (b arg)
            | none => .error .indexError
        else .error (.engine e)
    | _ =>
      match engineKeyLookup c.root (objAsString arg) with
      | .ok v => .ok v
      | .error e =>
        if is_lookup_miss e then
          match deflt with
          | some dv => .ok dv
          | none =>
            match block with
            | some b => .ok (b arg)
            | none => .error .keyError
        else .error (.engine e))

/-- Path segments of the dotted wildcard path syntax. -/
inductive Seg where
  | field (k : List Char)
  | star

/-- Modelled from the spec: split a dotted path into segments, `*` being
the wildcard. -/
def splitDot : List Char → List (List Char)
  | [] => [[]]
  | c :: cs =>
    if c = '.' then [] :: splitDot cs
    else
      match splitDot cs with
      | g :: gs => (c :: g) :: gs
      | [] => [[c]]

/-- Turn path text into segments. -/
def parsePath (s : List Char) : List Seg :=
  (splitDot s).map (fun seg => if seg = ['*'] then .star else .field seg)

/-- Modelled from the spec: the engine's wildcard path resolver
(`doc->at_path_with_wildcard`).  A field segment descends into an object
(missing field → `NO_SUCH_FIELD`, non-object → `INCORRECT_TYPE`, both
NavigationMiss), a wildcard segment expands across every element of an
array in document order; under a wildcard, branches that end in a
NavigationMiss contribute nothing, while any other engine error aborts the
whole resolution at once.  A resolution that succeeds with no matches
yields the empty collection. -/
def resolveWildcard : List Seg → RValue → Except ErrCode (List RValue)
  | [], v => .ok [v]
  | .field k :: rest, v =>
    (match v with
     | .hash _ =>
       match engineKeyLookup v k with
       | .ok v2 => resolveWildcard rest v2
       | .error e => .error e
     | _ => .error .incorrectType)
  | .star :: rest, v =>
    (match v with
     | .ary l =>
       l.foldr (fun x acc =>
         match acc with
         | .error e => .error e
         | .ok collected =>
           match resolveWildcard rest x with
           | .ok vs => .ok (vs ++ collected)
           | .error e =>
             if is_lookup_miss e then .ok collected else .error e) (.ok [])
     | _ => .error .incorrectType)

/-- Translation of the result handling of
`mrb_json_doc_at_path_with_wildcard` without a visitor block (source lines
959-981): a successful resolution is materialized into a host array in
document order; a NavigationMiss code yields nil; any other code is
raised. -/
def wildcardFinish (r : Except ErrCode (List RValue)) : Except RubyError RValue :=
  match r with
  | .ok vs => .ok (.ary vs)
  | .error e => if is_lookup_miss e then .ok .nil else .error (.engine e)

/-- Translation of `mrb_json_doc_at_path_with_wildcard` without a visitor
block: liveness/rehydration, engine resolution, result handling. -/
def mrb_json_doc_at_path_with_wildcard (d : DocBinding) (path : List Char) :
    Except RubyError RValue :=
  navigate d (fun c => wildcardFinish (resolveWildcard (parsePath path) c.root))

/-- Outcome of extracting one field during object enumeration: the
unescaped key and value, or the engine code from `field.unescaped_key()` /
`field.value()`. -/
def FieldRes : Type := Except ErrCode (List Char × RValue)

/-- Translation of the visitor-less branch of `mrb_json_doc_object_each`
(source lines 1057-1078): fold the fields into a fresh hash; a field whose
extraction fails is silently skipped — the loop body only acts
`if (code == SUCCESS)` and has no `else` — and the hash is returned
regardless. -/
def objectEachCollect (fields : List FieldRes) : Except RubyError RValue :=
  .ok (.hash ((fields.foldl (fun h f =>
    match f with
    | .ok (k, v) => hashInsert h k v
    | .error _ => h) []).map (fun q => ((.str q.1 : RValue), q.2))))

/-- Translation of the visitor branch of `mrb_json_doc_object_each`
(source lines 1033-1056): each field is extracted and yielded in order;
the first extraction failure is raised through `raise_simdjson_error`. -/
def objectEachVisit (fields : List FieldRes) : Except RubyError (List (List Char × RValue)) :=
  match fields with
  | [] => .ok []
  | .ok (k, v) :: fs => (objectEachVisit fs).map (fun l => (k, v) :: l)
  | .error e :: _ => .error (.engine e)

/-- Example document root: the object `a ↦ 1`. -/
def exObjRoot : RValue := .hash [(.str ['a'], .int 1)]

/-- Example live binding over `exObjRoot` whose retained parser would
rehydrate successfully. -/
def exObjDoc : DocBinding := ⟨⟨true, exObjRoot⟩, ⟨none, exObjRoot⟩⟩

/-- Example document root: the array `[10, 20]`. -/
def exAryRoot : RValue := .ary [.int 10, .int 20]

/-- Example live binding over `exAryRoot`. -/
def exAryDoc : DocBinding := ⟨⟨true, exAryRoot⟩, ⟨none, exAryRoot⟩⟩

/-- Example dead binding whose retained parser is busy, so rehydration
fails with `PARSER_IN_USE`. -/
def deadDocExample : DocBinding := ⟨⟨false, .nil⟩, ⟨some .parserInUse, .nil⟩⟩

/-- The spec's wildcard example document
`a ↦ [x ↦ 1, x ↦ 2, x ↦ 3]`. -/
def wildcardExampleRoot : RValue :=
  .hash [(.str ['a'], .ary
    [.hash [(.str ['x'], .int 1)],
     .hash [(.str ['x'], .int 2)],
     .hash [(.str ['x'], .int 3)]])]

/-- Live binding over the wildcard example document. -/
def wildcardExampleDoc : DocBinding :=
  ⟨⟨true, wildcardExampleRoot⟩, ⟨none, wildcardExampleRoot⟩⟩

/-- Concrete round-trip witness value: a nested object with an array of
every scalar kind. -/
def c1ExampleValue : RValue :=
  .hash [(.str ['a'], .ary [.int 1, .nil, .bool true, .str ['x'], .float 15 (-1)]),
         (.str ['b'], .int (-2))]

theorem printNatAux_ne_nil (fuel n : Nat) :
    printNatAux (fuel + 1) n ≠ [] := by
  rw [printNatAux]
  split
  · simp
  · simp

theorem digitChar_isDigit (d : Nat) (h : d < 10) : (digitChar d).isDigit = true := by
  interval_cases d <;> decide

theorem charDigit_digitChar (d : Nat) (h : d < 10) : charDigit (digitChar d) = d := by
  interval_cases d <;> decide

theorem digitChar_ne_quote (d : Nat) (h : d < 10) : digitChar d ≠ '"' := by
  interval_cases d <;> decide

theorem printNatAux_all_digits (fuel n : Nat) (h : n ≤ fuel) :
    ∀ c ∈ printNatAux (fuel + 1) n, c.isDigit = true := by
  induction fuel using Nat.strong_induction_on generalizing n with
  | _ fuel ih =>
    rw [printNatAux]
    split
    · rename_i hn
      intro c hc
      simp only [List.mem_singleton] at hc
      subst hc
      exact digitChar_isDigit n hn
    · rename_i hn
      push_neg at hn
      intro c hc
      match fuel with
      | 0 => omega
      | g + 1 =>
        simp only [List.mem_append, List.mem_singleton] at hc
        rcases hc with hc | hc
        · exact ih g (by omega) (n / 10) (by omega) c hc
        · subst hc
          exact digitChar_isDigit _ (Nat.mod_lt n (by omega))

theorem printNat_all_digits (n : Nat) : ∀ c ∈ printNat n, c.isDigit = true :=
  printNatAux_all_digits n n (Nat.le_refl n)

theorem printNat_ne_nil (n : Nat) : printNat n ≠ [] := printNatAux_ne_nil n n

theorem takeDigits_append (ds rest : List Char)
    (hds : ∀ c ∈ ds, c.isDigit = true)
    (hrest : ∀ c, rest.head? = some c → c.isDigit = false) :
    takeDigits (ds ++ rest) = (ds, rest) := by
  induction ds with
  | nil =>
    simp only [List.nil_append]
    match rest with
    | [] => rfl
    | c :: cs =>
      rw [takeDigits]
      have := hrest c rfl
      simp [this]
  | cons c cs ih =>
    rw [List.cons_append, takeDigits]
    have hc := hds c (by simp)
    simp only [hc, if_true]
    rw [ih (fun d hd => hds d (by simp [hd]))]

theorem foldl_digits_printNatAux (fuel n a : Nat) (h : n ≤ fuel) :
    List.foldl (fun a c => a * 10 + charDigit c) a (printNatAux (fuel + 1) n) =
      a * 10 ^ (printNatAux (fuel + 1) n).length + n := by
  induction fuel using Nat.strong_induction_on generalizing n a with
  | _ fuel ih =>
    rw [printNatAux]
    split
    · rename_i hn
      simp [charDigit_digitChar n hn]
    · rename_i hn
      push_neg at hn
      match fuel with
      | 0 => omega
      | g + 1 =>
        rw [List.foldl_append, List.length_append]
        rw [ih g (by omega) (n / 10) a (by omega)]
        simp only [List.foldl_cons, List.foldl_nil, List.length_cons,
          List.length_nil]
        rw [charDigit_digitChar _ (Nat.mod_lt n (by omega))]
        rw [pow_succ]
        have hdm : 10 * (n / 10) + n % 10 = n := Nat.div_add_mod n 10
        ring_nf
        omega

theorem digitsToNat_printNat (n : Nat) : digitsToNat (printNat n) = n := by
  unfold digitsToNat printNat
  rw [foldl_digits_printNatAux n n 0 (Nat.le_refl n)]
  simp

theorem hexVal_hexDigitChar (d : Nat) (h : d < 16) :
    hexVal (hexDigitChar d) = some d := by
  interval_cases d <;> decide

theorem parseStringBody_escStr (s : List Char) (rest : List Char) :
    parseStringBody (escStr s ++ '"' :: rest) = some (s, rest) := by
  induction s with
  | nil =>
    rw [escStr, List.nil_append, parseStringBody.eq_def]
    rfl
  | cons c cs ih =>
    rw [escStr]
    by_cases hq : c = '"'
    · subst hq
      have he : escChar '"' = ['\\', '"'] := rfl
      rw [he, List.cons_append, List.singleton_append,
        parseStringBody.eq_def]
      simp [decodeEsc, ih]
    · by_cases hb : c = '\\'
      · subst hb
        have he : escChar '\\' = ['\\', '\\'] := rfl
        rw [he, List.cons_append, List.singleton_append,
          parseStringBody.eq_def]
        simp [decodeEsc, ih]
      · by_cases hc : c.toNat < 32
        · have he : escChar c =
              '\\' :: 'u' :: '0' :: '0' ::
                [hexDigitChar (c.toNat / 16), hexDigitChar (c.toNat % 16)] := by
            simp only [escChar, if_neg hq, if_neg hb, if_pos hc]
          have h1 : hexVal '0' = some 0 := by decide
          have h2 : hexVal (hexDigitChar (c.toNat / 16)) = some (c.toNat / 16) :=
            hexVal_hexDigitChar _ (by omega)
          have h3 : hexVal (hexDigitChar (c.toNat % 16)) = some (c.toNat % 16) :=
            hexVal_hexDigitChar _ (Nat.mod_lt _ (by omega))
          rw [he]
          simp only [List.cons_append, List.nil_append]
          rw [parseStringBody.eq_def]
          simp [h1, h2, h3, ih, Nat.div_add_mod', Char.ofNat_toNat]
        · have he : escChar c = [c] := by
            simp only [escChar, if_neg hq, if_neg hb, if_neg hc]
          rw [he, List.singleton_append, parseStringBody.eq_def]
          simp [if_neg hq, if_neg hb, if_neg hc, ih]

theorem convertIntegerToken_eq (n : Int) : convertIntegerToken n = .int n := by
  unfold convertIntegerToken
  cases classifyIntMag n <;> rfl

theorem isDigit_ne_minus {c : Char} (h : c.isDigit = true) : c ≠ '-' := by
  intro he
  subst he
  simp at h

theorem scanInt_printInt (n : Int) (rest : List Char)
    (hrest : ∀ c, rest.head? = some c → c.isDigit = false) :
    scanInt (printInt n ++ rest) = some (n, rest) := by
  cases n with
  | ofNat m =>
    obtain ⟨d, ds, hds⟩ := List.exists_cons_of_ne_nil (printNat_ne_nil m)
    have hdig : ∀ c ∈ printNat m, c.isDigit = true := printNat_all_digits m
    have hd : d.isDigit = true := hdig d (by rw [hds]; simp)
    have htake : takeDigits (printNat m ++ rest) = (printNat m, rest) :=
      takeDigits_append _ _ hdig (fun c hc => hrest c hc)
    show scanInt (printNat m ++ rest) = some ((m : Int), rest)
    unfold scanInt
    rw [hds] at htake ⊢
    rw [List.cons_append] at htake ⊢
    have hne : (d :: (ds ++ rest)).head? ≠ some '-' := by
      simp only [List.head?_cons, ne_eq, Option.some.injEq]
      exact isDigit_ne_minus hd
    rw [if_neg hne, htake]
    have : digitsToNat (d :: ds) = m := by
      rw [← hds]; exact digitsToNat_printNat m
    simp [this]
  | negSucc k =>
    show scanInt ('-' :: printNat (k + 1) ++ rest) = some (Int.negSucc k, rest)
    obtain ⟨d, ds, hds⟩ := List.exists_cons_of_ne_nil (printNat_ne_nil (k + 1))
    have hdig : ∀ c ∈ printNat (k + 1), c.isDigit = true :=
      printNat_all_digits (k + 1)
    have htake : takeDigits (printNat (k + 1) ++ rest) = (printNat (k + 1), rest) :=
      takeDigits_append _ _ hdig (fun c hc => hrest c hc)
    unfold scanInt
    rw [List.cons_append]
    simp only [List.head?_cons, List.tail_cons, if_pos rfl]
    rw [hds] at htake ⊢
    rw [List.cons_append] at htake ⊢
    rw [htake]
    have hv : digitsToNat (d :: ds) = k + 1 := by
      rw [← hds]; exact digitsToNat_printNat (k + 1)
    simp [hv, Int.negSucc_eq]

theorem parseNumber_int (n : Int) (rest : List Char) (hrest : numDelim rest) :
    parseNumber (printInt n ++ rest) = some (.int n, rest) := by
  unfold parseNumber
  rw [scanInt_printInt n rest (fun c hc => (hrest c hc).1)]
  have hne : rest.head? ≠ some 'e' := by
    intro h
    exact (hrest 'e' h).2 rfl
  simp [hne, convertIntegerToken_eq]

theorem parseNumber_float (m e : Int) (rest : List Char) (hrest : numDelim rest) :
    parseNumber ((printInt m ++ 'e' :: printInt e) ++ rest) = some (.float m e, rest) := by
  unfold parseNumber
  rw [List.append_assoc, List.cons_append]
  rw [scanInt_printInt m ('e' :: (printInt e ++ rest)) (by intro c hc; simp at hc; subst hc; decide)]
  simp only [List.head?_cons, if_pos rfl, List.tail_cons]
  rw [scanInt_printInt e rest (fun c hc => (hrest c hc).1)]
  simp

theorem vsize_pos (v : RValue) : 1 ≤ vsize v := by
  cases v <;> simp [vsize] <;> omega

theorem printInt_head (n : Int) :
    ∃ c cs, printInt n = c :: cs ∧ (c.isDigit = true ∨ c = '-') := by
  cases n with
  | ofNat m =>
    obtain ⟨c, cs, h⟩ := List.exists_cons_of_ne_nil (printNat_ne_nil m)
    exact ⟨c, cs, h, .inl (printNat_all_digits m c (by rw [h]; simp))⟩
  | negSucc k =>
    exact ⟨'-', printNat (k + 1), rfl, .inr rfl⟩

theorem digit_or_minus_ne {c : Char} (h : c.isDigit = true ∨ c = '-') :
    c ≠ 'n' ∧ c ≠ 't' ∧ c ≠ 'f' ∧ c ≠ '"' ∧ c ≠ '[' ∧ c ≠ '\x7b' ∧
      c ≠ ']' ∧ c ≠ '\x7d' ∧ c ≠ ',' := by
  rcases h with h | h
  · refine ⟨?_, ?_, ?_, ?_, ?_, ?_, ?_, ?_, ?_⟩ <;>
      (intro he; subst he; exact absurd h (by decide))
  · subst h
    refine ⟨?_, ?_, ?_, ?_, ?_, ?_, ?_, ?_, ?_⟩ <;> decide

/-- Every encoded value is nonempty and starts with a character that is not
a closing delimiter or separator. -/
theorem jsonEncode_head (v : RValue) :
    ∃ c cs, jsonEncode v = c :: cs ∧ c ≠ ']' ∧ c ≠ '\x7d' ∧ c ≠ ',' := by
  cases v with
  | nil => refine ⟨'n', _, rfl, ?_, ?_, ?_⟩ <;> decide
  | bool b =>
    cases b with
    | false => refine ⟨'f', _, rfl, ?_, ?_, ?_⟩ <;> decide
    | true => refine ⟨'t', _, rfl, ?_, ?_, ?_⟩ <;> decide
  | sym s => refine ⟨'"', _, rfl, ?_, ?_, ?_⟩ <;> decide
  | str s => refine ⟨'"', _, rfl, ?_, ?_, ?_⟩ <;> decide
  | other t => refine ⟨'"', _, rfl, ?_, ?_, ?_⟩ <;> decide
  | ary l => refine ⟨'[', _, rfl, ?_, ?_, ?_⟩ <;> decide
  | hash l => refine ⟨'\x7b', _, rfl, ?_, ?_, ?_⟩ <;> decide
  | int n =>
    obtain ⟨c, cs, hc, hd⟩ := printInt_head n
    obtain ⟨_, _, _, _, _, _, h7, h8, h9⟩ := digit_or_minus_ne hd
    exact ⟨c, cs, by simpa [jsonEncode] using hc, h7, h8, h9⟩
  | float m e =>
    obtain ⟨c, cs, hc, hd⟩ := printInt_head m
    obtain ⟨_, _, _, _, _, _, h7, h8, h9⟩ := digit_or_minus_ne hd
    refine ⟨c, cs ++ 'e' :: printInt e, ?_, h7, h8, h9⟩
    show printInt m ++ 'e' :: printInt e = c :: (cs ++ 'e' :: printInt e)
    rw [hc, List.cons_append]

theorem hashInsert_notmem (ps : List (List Char × RValue)) (k : List Char)
    (v : RValue) (h : k ∉ ps.map Prod.fst) :
    hashInsert ps k v = ps ++ [(k, v)] := by
  induction ps with
  | nil => rfl
  | cons p ps ih =>
    obtain ⟨k0, v0⟩ := p
    simp only [List.map_cons, List.mem_cons, not_or] at h
    rw [hashInsert, if_neg (fun he => h.1 he.symm), ih h.2, List.cons_append]

theorem foldl_hashInsert (entries : List (List Char × RValue)) :
    ∀ acc, (∀ k ∈ entries.map Prod.fst, k ∉ acc.map Prod.fst) →
      (entries.map Prod.fst).Nodup →
      entries.foldl (fun h kv => hashInsert h kv.1 kv.2) acc = acc ++ entries := by
  induction entries with
  | nil => intro acc _ _; simp
  | cons e es ih =>
    intro acc hdisj hnodup
    obtain ⟨k, v⟩ := e
    simp only [List.map_cons, List.nodup_cons] at hnodup
    have hk : k ∉ acc.map Prod.fst :=
      hdisj k (by simp only [List.map_cons]; exact List.mem_cons_self _ _)
    rw [List.foldl_cons]
    show List.foldl (fun h kv => hashInsert h kv.1 kv.2) (hashInsert acc k v) es =
      acc ++ (k, v) :: es
    rw [hashInsert_notmem acc k v hk]
    have hd2 : ∀ k2 ∈ es.map Prod.fst, k2 ∉ (acc ++ [(k, v)]).map Prod.fst := by
      intro k2 hk2
      simp only [List.map_append, List.mem_append, List.map_cons,
        List.map_nil, List.mem_singleton, not_or]
      have hmem2 : k2 ∈ List.map Prod.fst ((k, v) :: es) := by
        simp only [List.map_cons]
        exact List.mem_cons_of_mem _ hk2
      refine ⟨hdisj k2 hmem2, ?_⟩
      intro he
      subst he
      exact hnodup.1 hk2
    rw [ih (acc ++ [(k, v)]) hd2 hnodup.2]
    simp

theorem keyMem_iff (s : List Char) (ps : List (RValue × RValue)) :
    wfP ps = true → (keyMem s ps = true ↔ s ∈ (stripPairs ps).map Prod.fst) := by
  induction ps with
  | nil => intro _; simp [keyMem, stripPairs]
  | cons p ps ih =>
    obtain ⟨k, v⟩ := p
    intro h
    rw [wfP] at h
    simp only [Bool.and_eq_true] at h
    obtain ⟨⟨hkey, hv⟩, hps⟩ := h
    cases k with
    | str t =>
      rw [keyMem]
      simp only [stripPairs, List.map_cons, objAsString, List.mem_cons,
        Bool.or_eq_true, decide_eq_true_iff]
      rw [ih hps]
      simp only [stripPairs]
      constructor
      · rintro (h1 | h1)
        · exact .inl h1.symm
        · exact .inr h1
      · rintro (h1 | h1)
        · exact .inl h1.symm
        · exact .inr h1
    | nil => exact absurd hkey (by simp [isStrKey])
    | bool b => exact absurd hkey (by simp [isStrKey])
    | int n => exact absurd hkey (by simp [isStrKey])
    | float m e => exact absurd hkey (by simp [isStrKey])
    | sym t => exact absurd hkey (by simp [isStrKey])
    | ary l => exact absurd hkey (by simp [isStrKey])
    | hash l => exact absurd hkey (by simp [isStrKey])
    | other t => exact absurd hkey (by simp [isStrKey])

theorem wfP_strip_nodup (ps : List (RValue × RValue)) :
    wfP ps = true → ((stripPairs ps).map Prod.fst).Nodup := by
  induction ps with
  | nil => intro _; simp [stripPairs]
  | cons p ps ih =>
    obtain ⟨k, v⟩ := p
    intro h
    rw [wfP] at h
    simp only [Bool.and_eq_true] at h
    obtain ⟨⟨hkey, hv⟩, hps⟩ := h
    cases k with
    | str t =>
      rw [isStrKey, Bool.not_eq_true'] at hkey
      simp only [stripPairs, List.map_cons, objAsString, List.nodup_cons]
      refine ⟨?_, ih hps⟩
      intro hmem
      have hm : keyMem t ps = true := (keyMem_iff t ps hps).mpr (by
        simpa [stripPairs] using hmem)
      rw [hkey] at hm
      exact Bool.false_ne_true hm
    | nil => exact absurd hkey (by simp [isStrKey])
    | bool b => exact absurd hkey (by simp [isStrKey])
    | int n => exact absurd hkey (by simp [isStrKey])
    | float m e => exact absurd hkey (by simp [isStrKey])
    | sym t => exact absurd hkey (by simp [isStrKey])
    | ary l => exact absurd hkey (by simp [isStrKey])
    | hash l => exact absurd hkey (by simp [isStrKey])
    | other t => exact absurd hkey (by simp [isStrKey])

theorem stripPairs_restore (ps : List (RValue × RValue)) :
    wfP ps = true →
      (stripPairs ps).map (fun q => ((.str q.1 : RValue), q.2)) = ps := by
  induction ps with
  | nil => intro _; simp [stripPairs]
  | cons p ps ih =>
    obtain ⟨k, v⟩ := p
    intro h
    rw [wfP] at h
    simp only [Bool.and_eq_true] at h
    obtain ⟨⟨hkey, hv⟩, hps⟩ := h
    cases k with
    | str t =>
      have htail := ih hps
      simp only [stripPairs] at htail
      simp only [stripPairs, List.map_cons]
      rw [htail]
      rfl
    | nil => exact absurd hkey (by simp [isStrKey])
    | bool b => exact absurd hkey (by simp [isStrKey])
    | int n => exact absurd hkey (by simp [isStrKey])
    | float m e => exact absurd hkey (by simp [isStrKey])
    | sym t => exact absurd hkey (by simp [isStrKey])
    | ary l => exact absurd hkey (by simp [isStrKey])
    | hash l => exact absurd hkey (by simp [isStrKey])
    | other t => exact absurd hkey (by simp [isStrKey])

theorem hashFromEntries_strip (ps : List (RValue × RValue)) (h : wfP ps = true) :
    hashFromEntries (stripPairs ps) = ps := by
  unfold hashFromEntries
  have hd : ∀ k ∈ (stripPairs ps).map Prod.fst,
      k ∉ (([] : List (List Char × RValue)).map Prod.fst) := by
    intro k _ hk
    simp at hk
  rw [foldl_hashInsert (stripPairs ps) [] hd (wfP_strip_nodup ps h)]
  rw [List.nil_append]
  exact stripPairs_restore ps h

theorem parseF_null (g : Nat) (rest : List Char) :
    parseF (g + 1) .value ('n' :: 'u' :: 'l' :: 'l' :: rest) = some (.val .nil, rest) := rfl

theorem parseF_true (g : Nat) (rest : List Char) :
    parseF (g + 1) .value ('t' :: 'r' :: 'u' :: 'e' :: rest) = some (.val (.bool true), rest) := rfl

theorem parseF_false (g : Nat) (rest : List Char) :
    parseF (g + 1) .value ('f' :: 'a' :: 'l' :: 's' :: 'e' :: rest) = some (.val (.bool false), rest) := rfl

theorem parseF_string (g : Nat) (r : List Char) :
    parseF (g + 1) .value ('"' :: r) =
      (parseStringBody r).map (fun p => (.val (.str p.1), p.2)) := rfl

theorem parseF_lbracket (g : Nat) (r : List Char) :
    parseF (g + 1) .value ('[' :: r) =
      match parseF g .elems r with
      | some (.elems l, r2) => some (.val (.ary l), r2)
      | _ => none := rfl

theorem parseF_lbrace (g : Nat) (r : List Char) :
    parseF (g + 1) .value ('\x7b' :: r) =
      match parseF g .membs r with
      | some (.membs entries, r2) => some (.val (.hash (hashFromEntries entries)), r2)
      | _ => none := rfl

theorem parseF_value_other (g : Nat) (c : Char) (r : List Char)
    (h1 : c ≠ 'n') (h2 : c ≠ 't') (h3 : c ≠ 'f') (h4 : c ≠ '"')
    (h5 : c ≠ '[') (h6 : c ≠ '\x7b') :
    parseF (g + 1) .value (c :: r) =
      (parseNumber (c :: r)).map (fun p => (.val p.1, p.2)) := by
  rw [parseF.eq_def]
  simp only [if_neg h1, if_neg h2, if_neg h3, if_neg h4, if_neg h5, if_neg h6]

theorem parseF_elems_close (g : Nat) (r : List Char) :
    parseF (g + 1) .elems (']' :: r) = some (.elems [], r) := rfl

theorem parseF_elems_other (g : Nat) (c : Char) (r : List Char) (h : c ≠ ']') :
    parseF (g + 1) .elems (c :: r) =
      match parseF g .value (c :: r) with
      | some (.val v, r2) =>
        (match r2 with
         | ',' :: r3 =>
           if r3.head? = some ']' then none
           else
             match parseF g .elems r3 with
             | some (.elems l, r4) => some (.elems (v :: l), r4)
             | _ => none
         | ']' :: r3 => some (.elems [v], r3)
         | _ => none)
      | _ => none := by
  rw [parseF.eq_def]
  simp only [if_neg h]

theorem parseF_membs_close (g : Nat) (r : List Char) :
    parseF (g + 1) .membs ('\x7d' :: r) = some (.membs [], r) := rfl

theorem parseF_membs_key (g : Nat) (r : List Char) :
    parseF (g + 1) .membs ('"' :: r) =
      match parseStringBody r with
      | some (k, r2) =>
        (match r2 with
         | ':' :: r3 =>
           match parseF g .value r3 with
           | some (.val v, r4) =>
             (match r4 with
              | ',' :: r5 =>
                if r5.head? = some '\x7d' then none
                else
                  (match parseF g .membs r5 with
                   | some (.membs l, r6) => some (.membs ((k, v) :: l), r6)
                   | _ => none)
              | '\x7d' :: r5 => some (.membs [(k, v)], r5)
              | _ => none)
           | _ => none
         | _ => none)
      | none => none := rfl

theorem numDelim_nil : numDelim [] := by
  intro c hc
  simp at hc

theorem numDelim_cons {c : Char} (h1 : c.isDigit = false) (h2 : c ≠ 'e')
    (rest : List Char) : numDelim (c :: rest) := by
  intro d hd
  simp only [List.head?_cons, Option.some.injEq] at hd
  subst hd
  exact ⟨h1, h2⟩

theorem encodeElems_cons_ex (w : RValue) (vs2 : List RValue) :
    ∃ tl, encodeElems (w :: vs2) = jsonEncode w ++ tl := by
  cases vs2 with
  | nil => exact ⟨[], by simp [encodeElems]⟩
  | cons x xs => exact ⟨',' :: encodeElems (x :: xs), rfl⟩

theorem encodePairs_cons_ex (q : RValue × RValue) (qs : List (RValue × RValue)) :
    ∃ tl, encodePairs (q :: qs) = '"' :: tl := by
  obtain ⟨k2, v2⟩ := q
  cases qs with
  | nil => exact ⟨escStr (objAsString k2) ++ ['"'] ++ ':' :: jsonEncode v2, by
      show encodeQuoted (objAsString k2) ++ ':' :: jsonEncode v2 = _
      simp [encodeQuoted]⟩
  | cons x xs => exact ⟨escStr (objAsString k2) ++ ['"'] ++
      ':' :: jsonEncode v2 ++ ',' :: encodePairs (x :: xs), by
      show encodeQuoted (objAsString k2) ++ ':' :: jsonEncode v2 ++
        ',' :: encodePairs (x :: xs) = _
      simp [encodeQuoted]⟩

/-- Round-trip workhorse: parsing the encoding of a well-formed value (or
element/member list) consumes exactly the encoding and returns the value,
for any fuel at least its structural size. -/
theorem parse_encode_main (n : Nat) :
    (∀ v, wfOK v = true → vsize v ≤ n → ∀ f, vsize v ≤ f → ∀ rest, numDelim rest →
      parseF f .value (jsonEncode v ++ rest) = some (.val v, rest)) ∧
    (∀ l, wfL l = true → lsize l + 1 ≤ n → ∀ f, lsize l + 1 ≤ f → ∀ rest,
      parseF f .elems (encodeElems l ++ ']' :: rest) = some (.elems l, rest)) ∧
    (∀ ps, wfP ps = true → psize ps + 1 ≤ n → ∀ f, psize ps + 1 ≤ f → ∀ rest,
      parseF f .membs (encodePairs ps ++ '\x7d' :: rest) =
        some (.membs (stripPairs ps), rest)) := by
  induction n with
  | zero =>
    refine ⟨fun v _ hv => absurd hv (by have := vsize_pos v; omega),
            fun l _ hl => absurd hl (by omega),
            fun ps _ hp => absurd hp (by omega)⟩
  | succ n ih =>
    obtain ⟨ihV, ihE, ihM⟩ := ih
    refine ⟨?_, ?_, ?_⟩
    · -- value production
      intro v hwf hn f hf rest hrest
      obtain ⟨g, rfl⟩ : ∃ g, f = g + 1 := ⟨f - 1, by have := vsize_pos v; omega⟩
      cases v with
      | nil =>
        show parseF (g + 1) .value (['n', 'u', 'l', 'l'] ++ rest) = _
        simp only [List.cons_append, List.nil_append]
        exact parseF_null g rest
      | bool b =>
        cases b with
        | false =>
          show parseF (g + 1) .value (['f', 'a', 'l', 's', 'e'] ++ rest) = _
          simp only [List.cons_append, List.nil_append]
          exact parseF_false g rest
        | true =>
          show parseF (g + 1) .value (['t', 'r', 'u', 'e'] ++ rest) = _
          simp only [List.cons_append, List.nil_append]
          exact parseF_true g rest
      | str s =>
        show parseF (g + 1) .value (encodeQuoted s ++ rest) = _
        rw [encodeQuoted, List.cons_append, List.append_assoc,
          List.singleton_append, parseF_string, parseStringBody_escStr]
        rfl
      | int m =>
        obtain ⟨c, cs, hc, hd⟩ := printInt_head m
        obtain ⟨h1, h2, h3, h4, h5, h6, _, _, _⟩ := digit_or_minus_ne hd
        show parseF (g + 1) .value (printInt m ++ rest) = _
        rw [hc, List.cons_append, parseF_value_other g c _ h1 h2 h3 h4 h5 h6,
          ← List.cons_append, ← hc, parseNumber_int m rest hrest]
        rfl
      | float m e =>
        obtain ⟨c, cs, hc, hd⟩ := printInt_head m
        obtain ⟨h1, h2, h3, h4, h5, h6, _, _, _⟩ := digit_or_minus_ne hd
        show parseF (g + 1) .value ((printInt m ++ 'e' :: printInt e) ++ rest) = _
        have hshape : (printInt m ++ 'e' :: printInt e) ++ rest =
            c :: (cs ++ 'e' :: printInt e ++ rest) := by
          rw [hc]
          simp
        rw [hshape, parseF_value_other g c _ h1 h2 h3 h4 h5 h6, ← hshape,
          parseNumber_float m e rest hrest]
        rfl
      | sym s => exact absurd hwf (by simp [wfOK])
      | other t => exact absurd hwf (by simp [wfOK])
      | ary l =>
        have hwl : wfL l = true := by simpa [wfOK] using hwf
        show parseF (g + 1) .value (('[' :: (encodeElems l ++ [']'])) ++ rest) = _
        rw [List.cons_append, List.append_assoc, List.singleton_append,
          parseF_lbracket]
        have hE : parseF g .elems (encodeElems l ++ ']' :: rest) =
            some (.elems l, rest) := by
          apply ihE l hwl
          · simp only [vsize] at hn; omega
          · simp only [vsize] at hf; omega
        rw [hE]
      | hash ps =>
        have hwp : wfP ps = true := by simpa [wfOK] using hwf
        show parseF (g + 1) .value (('\x7b' :: (encodePairs ps ++ ['\x7d'])) ++ rest) = _
        rw [List.cons_append, List.append_assoc, List.singleton_append,
          parseF_lbrace]
        have hM : parseF g .membs (encodePairs ps ++ '\x7d' :: rest) =
            some (.membs (stripPairs ps), rest) := by
          apply ihM ps hwp
          · simp only [vsize] at hn; omega
          · simp only [vsize] at hf; omega
        simp only [hM, hashFromEntries_strip ps hwp]
    · -- array elements production
      intro l hwf hn f hf rest
      obtain ⟨g, rfl⟩ : ∃ g, f = g + 1 := ⟨f - 1, by omega⟩
      cases l with
      | nil =>
        show parseF (g + 1) .elems (encodeElems [] ++ ']' :: rest) = _
        rw [show encodeElems [] = [] from rfl, List.nil_append,
          parseF_elems_close]
      | cons v vs =>
        have hwfv : wfOK v = true := by
          rw [wfL] at hwf
          exact (Bool.and_eq_true _ _ |>.mp hwf).1
        have hwfvs : wfL vs = true := by
          rw [wfL] at hwf
          exact (Bool.and_eq_true _ _ |>.mp hwf).2
        obtain ⟨c, cs, hc, hne1, hne2, hne3⟩ := jsonEncode_head v
        cases vs with
        | nil =>
          show parseF (g + 1) .elems (encodeElems [v] ++ ']' :: rest) = _
          rw [show encodeElems [v] = jsonEncode v from rfl, hc,
            List.cons_append, parseF_elems_other g c _ hne1,
            ← List.cons_append, ← hc]
          have hv : parseF g .value (jsonEncode v ++ ']' :: rest) =
              some (.val v, ']' :: rest) := by
            apply ihV v hwfv ?_ g ?_ _ (numDelim_cons (by decide) (by decide) rest)
            · simp only [lsize] at hn; omega
            · simp only [lsize] at hf; omega
          simp only [hv]
        | cons w vs2 =>
          show parseF (g + 1) .elems (encodeElems (v :: w :: vs2) ++ ']' :: rest) = _
          rw [show encodeElems (v :: w :: vs2) =
            jsonEncode v ++ ',' :: encodeElems (w :: vs2) from rfl]
          rw [List.append_assoc, List.cons_append]
          rw [hc, List.cons_append, parseF_elems_other g c _ hne1,
            ← List.cons_append, ← hc]
          have hv : parseF g .value
              (jsonEncode v ++ ',' :: (encodeElems (w :: vs2) ++ ']' :: rest)) =
              some (.val v, ',' :: (encodeElems (w :: vs2) ++ ']' :: rest)) := by
            apply ihV v hwfv ?_ g ?_ _ (numDelim_cons (by decide) (by decide) _)
            · simp only [lsize] at hn
              have := vsize_pos w
              omega
            · simp only [lsize] at hf
              have := vsize_pos w
              omega
          rw [hv]
          obtain ⟨cw, csw, hcw, hwne1, _, _⟩ := jsonEncode_head w
          obtain ⟨tl, htl⟩ := encodeElems_cons_ex w vs2
          have hhead : (encodeElems (w :: vs2) ++ ']' :: rest).head? ≠ some ']' := by
            rw [htl, hcw]
            simp only [List.cons_append, List.head?_cons, ne_eq, Option.some.injEq]
            exact hwne1
          have hE2 : parseF g .elems (encodeElems (w :: vs2) ++ ']' :: rest) =
              some (.elems (w :: vs2), rest) := by
            apply ihE (w :: vs2) hwfvs
            · simp only [lsize] at hn ⊢
              have := vsize_pos v
              omega
            · simp only [lsize] at hf ⊢
              have := vsize_pos v
              omega
          simp only [if_neg hhead, hE2]
    · -- object members production
      intro ps hwf hn f hf rest
      obtain ⟨g, rfl⟩ : ∃ g, f = g + 1 := ⟨f - 1, by omega⟩
      cases ps with
      | nil =>
        show parseF (g + 1) .membs (encodePairs [] ++ '\x7d' :: rest) = _
        rw [show encodePairs [] = [] from rfl, List.nil_append,
          parseF_membs_close]
        rfl
      | cons p ps2 =>
        obtain ⟨k, v⟩ := p
        rw [wfP] at hwf
        simp only [Bool.and_eq_true] at hwf
        obtain ⟨⟨hkey, hwfv⟩, hwfps⟩ := hwf
        cases k with
        | nil => exact absurd hkey (by simp [isStrKey])
        | bool b => exact absurd hkey (by simp [isStrKey])
        | int n2 => exact absurd hkey (by simp [isStrKey])
        | float m2 e2 => exact absurd hkey (by simp [isStrKey])
        | sym t => exact absurd hkey (by simp [isStrKey])
        | ary l2 => exact absurd hkey (by simp [isStrKey])
        | hash l2 => exact absurd hkey (by simp [isStrKey])
        | other t => exact absurd hkey (by simp [isStrKey])
        | str t =>
          cases ps2 with
          | nil =>
            have hshape : encodePairs [((.str t : RValue), v)] ++ '\x7d' :: rest =
                '"' :: (escStr t ++ '"' :: ':' :: (jsonEncode v ++ '\x7d' :: rest)) := by
              show (encodeQuoted (objAsString (.str t)) ++ ':' :: jsonEncode v) ++
                '\x7d' :: rest = _
              simp [encodeQuoted, objAsString]
            show parseF (g + 1) .membs
              (encodePairs [((.str t : RValue), v)] ++ '\x7d' :: rest) = _
            rw [hshape, parseF_membs_key, parseStringBody_escStr]
            have hv : parseF g .value (jsonEncode v ++ '\x7d' :: rest) =
                some (.val v, '\x7d' :: rest) := by
              apply ihV v hwfv ?_ g ?_ _ (numDelim_cons (by decide) (by decide) rest)
              · simp only [psize] at hn; omega
              · simp only [psize] at hf; omega
            simp only [hv]
            rfl
          | cons q qs =>
            have hshape : encodePairs (((.str t : RValue), v) :: q :: qs) ++
                '\x7d' :: rest =
                '"' :: (escStr t ++ '"' :: ':' ::
                  (jsonEncode v ++ ',' :: (encodePairs (q :: qs) ++ '\x7d' :: rest))) := by
              show (encodeQuoted (objAsString (.str t)) ++
                ':' :: jsonEncode v ++ ',' :: encodePairs (q :: qs)) ++
                  '\x7d' :: rest = _
              simp [encodeQuoted, objAsString]
            show parseF (g + 1) .membs
              (encodePairs (((.str t : RValue), v) :: q :: qs) ++ '\x7d' :: rest) = _
            rw [hshape, parseF_membs_key, parseStringBody_escStr]
            have hv : parseF g .value
                (jsonEncode v ++ ',' :: (encodePairs (q :: qs) ++ '\x7d' :: rest)) =
                some (.val v, ',' :: (encodePairs (q :: qs) ++ '\x7d' :: rest)) := by
              apply ihV v hwfv ?_ g ?_ _ (numDelim_cons (by decide) (by decide) _)
              · simp only [psize] at hn
                have := vsize_pos q.2
                omega
              · simp only [psize] at hf
                have := vsize_pos q.2
                omega
            simp only [hv]
            obtain ⟨tl, htl⟩ := encodePairs_cons_ex q qs
            have hhead : (encodePairs (q :: qs) ++ '\x7d' :: rest).head? ≠
                some '\x7d' := by
              rw [htl]
              simp only [List.cons_append, List.head?_cons, ne_eq, Option.some.injEq]
              decide
            have hM2 : parseF g .membs (encodePairs (q :: qs) ++ '\x7d' :: rest) =
                some (.membs (stripPairs (q :: qs)), rest) := by
              apply ihM (q :: qs) hwfps
              · simp only [psize] at hn ⊢
                have := vsize_pos v
                omega
              · simp only [psize] at hf ⊢
                have := vsize_pos v
                omega
            simp only [if_neg hhead, hM2]
            rfl

theorem jsonEncode_length_pos (v : RValue) : 1 ≤ (jsonEncode v).length := by
  obtain ⟨c, cs, hc, _⟩ := jsonEncode_head v
  rw [hc]
  simp

/-- Fuel bound: the structural size of a value is dominated by twice the
length of its encoding. -/
theorem vsize_le_encode (n : Nat) :
    (∀ v, vsize v ≤ n → vsize v ≤ 2 * (jsonEncode v).length) ∧
    (∀ l, lsize l + 1 ≤ n → lsize l ≤ 2 * (encodeElems l).length + 1) ∧
    (∀ ps, psize ps + 1 ≤ n → psize ps ≤ 2 * (encodePairs ps).length + 1) := by
  induction n with
  | zero =>
    refine ⟨fun v hv => absurd hv (by have := vsize_pos v; omega),
            fun l hl => absurd hl (by omega),
            fun ps hp => absurd hp (by omega)⟩
  | succ n ih =>
    obtain ⟨ihV, ihE, ihM⟩ := ih
    refine ⟨?_, ?_, ?_⟩
    · intro v hv
      cases v with
      | ary l =>
        have h := ihE l (by simp only [vsize] at hv; omega)
        simp only [vsize, jsonEncode, List.length_cons, List.length_append,
          List.length_singleton]
        omega
      | hash ps =>
        have h := ihM ps (by simp only [vsize] at hv; omega)
        simp only [vsize, jsonEncode, List.length_cons, List.length_append,
          List.length_singleton]
        omega
      | nil => simp [vsize, jsonEncode]
      | bool b => cases b <;> simp [vsize, jsonEncode]
      | int m =>
        have := jsonEncode_length_pos (.int m)
        simp only [vsize]
        omega
      | float m e =>
        have := jsonEncode_length_pos (.float m e)
        simp only [vsize]
        omega
      | str s =>
        have := jsonEncode_length_pos (.str s)
        simp only [vsize]
        omega
      | sym s =>
        have := jsonEncode_length_pos (.sym s)
        simp only [vsize]
        omega
      | other t =>
        have := jsonEncode_length_pos (.other t)
        simp only [vsize]
        omega
    · intro l hl
      cases l with
      | nil => simp [lsize]
      | cons v vs =>
        have hA := ihV v (by simp only [lsize] at hl; omega)
        cases vs with
        | nil =>
          rw [show encodeElems [v] = jsonEncode v from rfl]
          simp only [lsize]
          omega
        | cons w vs2 =>
          have hB := ihE (w :: vs2)
            (by simp only [lsize] at hl ⊢; have := vsize_pos v; omega)
          simp only [lsize] at hB ⊢
          rw [show encodeElems (v :: w :: vs2) =
            jsonEncode v ++ ',' :: encodeElems (w :: vs2) from rfl]
          simp only [List.length_append, List.length_cons]
          omega
    · intro ps hp
      cases ps with
      | nil => simp [psize]
      | cons p ps2 =>
        obtain ⟨k, v⟩ := p
        have hA := ihV v (by simp only [psize] at hp; omega)
        cases ps2 with
        | nil =>
          simp only [psize]
          rw [show encodePairs [(k, v)] =
            encodeQuoted (objAsString k) ++ ':' :: jsonEncode v from rfl]
          simp only [List.length_append, List.length_cons]
          omega
        | cons q qs =>
          have hC := ihM (q :: qs)
            (by simp only [psize] at hp ⊢; have := vsize_pos v; omega)
          simp only [psize] at hC ⊢
          rw [show encodePairs ((k, v) :: q :: qs) =
            encodeQuoted (objAsString k) ++
              ':' :: jsonEncode v ++ ',' :: encodePairs (q :: qs) from rfl]
          simp only [List.length_append, List.length_cons]
          omega

theorem parse_jsonEncode (v : RValue) (h : wfOK v = true) :
    JSON.parse (jsonEncode v) = .ok v := by
  unfold JSON.parse
  obtain ⟨c, cs, hc, _⟩ := jsonEncode_head v
  rw [if_neg (by rw [hc]; simp)]
  have hfuel : vsize v ≤ 2 * (jsonEncode v).length + 2 := by
    have := (vsize_le_encode (vsize v)).1 v (Nat.le_refl _)
    omega
  have hmain := (parse_encode_main (vsize v)).1 v h (Nat.le_refl _)
    (2 * (jsonEncode v).length + 2) hfuel [] numDelim_nil
  rw [List.append_nil] at hmain
  rw [hmain]

/-- C1: for every value built from null, booleans, int64 integers, floats,
strings, and nested arrays/objects (string keys, unique per object),
`parse(dump(V))` is structurally equal to V. -/
theorem c1_parse_dump_roundtrip (v : RValue) (h : wfOK v = true) :
    (mrb_json_dump v).bind (fun text => (JSON.parse text).mapError RubyError.engine) =
      .ok v := by
  show (JSON.parse (jsonEncode v)).mapError RubyError.engine = .ok v
  rw [parse_jsonEncode v h]
  rfl

/-- C1 witness: the round trip evaluated on a concrete nested value. -/
theorem c1_parse_dump_roundtrip_witness :
    wfOK c1ExampleValue = true ∧
    (mrb_json_dump c1ExampleValue).bind
      (fun text => (JSON.parse text).mapError RubyError.engine) = .ok c1ExampleValue :=
  ⟨by rfl, c1_parse_dump_roundtrip c1ExampleValue (by rfl)⟩

/-- C2: a navigation call on a live document runs directly; on a document
that is not alive it first rehydrates by re-running `iterate` on the
retained view/parser and then runs the call exactly once on the fresh
cursor; if that rehydration fails, the call raises that failure's error
instead of returning stale data. -/
theorem c2_rehydration (d : DocBinding) (op : DocCell → Except RubyError RValue) :
    (d.cell.alive = true → navigate d op = op d.cell) ∧
    (d.cell.alive = false → d.engineParser.failure = none →
      navigate d op = op ⟨true, d.engineParser.freshRoot⟩) ∧
    (∀ e, d.cell.alive = false → d.engineParser.failure = some e →
      navigate d op = .error (.engine e)) := by
  refine ⟨?_, ?_, ?_⟩
  · intro ha
    simp [navigate, mrb_json_doc_get, ha]
  · intro ha hp
    simp [navigate, mrb_json_doc_get, ha, hp]
  · intro e ha hp
    simp [navigate, mrb_json_doc_get, ha, hp]

/-- C2 witness: a dead binding whose parser is busy raises the
rehydration failure. -/
theorem c2_rehydration_witness :
    (deadDocExample.cell.alive = false ∧
      deadDocExample.engineParser.failure = some .parserInUse) ∧
    navigate deadDocExample (fun c => .ok c.root) = .error (.engine .parserInUse) :=
  ⟨⟨rfl, rfl⟩,
    (c2_rehydration deadDocExample (fun c => .ok c.root)).2.2 .parserInUse rfl rfl⟩

/-- C3: a lookup miss in `fetch` resolves in priority order — supplied
default first, then the fallback block, and only with neither does fetch
raise the not-found error (`E_KEY_ERROR` for keys, `E_INDEX_ERROR` for
indices); `doc["missing"]` resolves to nil and never raises on a miss. -/
theorem c3_fetch_miss_priority (d : DocBinding) (k : List Char) (i : Int)
    (dv : RValue) (b : RValue → RValue)
    (halive : d.cell.alive = true)
    (ek : ErrCode) (hk : engineKeyLookup d.cell.root k = .error ek)
    (hmk : is_lookup_miss ek = true)
    (ei : ErrCode) (hi : engineAt d.cell.root i = .error ei)
    (hmi : is_lookup_miss ei = true) :
    mrb_json_doc_fetch d (.str k) (some dv) (some b) = .ok dv ∧
    mrb_json_doc_fetch d (.str k) (some dv) none = .ok dv ∧
    mrb_json_doc_fetch d (.str k) none (some b) = .ok (b (.str k)) ∧
    mrb_json_doc_fetch d (.str k) none none = .error .keyError ∧
    mrb_json_doc_fetch d (.int i) (some dv) (some b) = .ok dv ∧
    mrb_json_doc_fetch d (.int i) none (some b) = .ok (b (.int i)) ∧
    mrb_json_doc_fetch d (.int i) none none = .error .indexError ∧
    mrb_json_doc_aref d (.str k) = .ok .nil := by
  refine ⟨?_, ?_, ?_, ?_, ?_, ?_, ?_, ?_⟩ <;>
    simp [mrb_json_doc_fetch, mrb_json_doc_aref, navigate, mrb_json_doc_get,
      halive, objAsString, hk, hmk, hi, hmi]

/-- C3 witness: the priority chain evaluated on a concrete object document
and a missing key and index. -/
theorem c3_fetch_miss_priority_witness :
    (exObjDoc.cell.alive = true ∧
      engineKeyLookup exObjDoc.cell.root ['m'] = .error .noSuchField ∧
      is_lookup_miss .noSuchField = true ∧
      engineAt exObjDoc.cell.root 5 = .error .incorrectType ∧
      is_lookup_miss .incorrectType = true) ∧
    mrb_json_doc_fetch exObjDoc (.str ['m']) (some (.int 7)) (some (fun _ => .int 9)) =
      .ok (.int 7) ∧
    mrb_json_doc_fetch exObjDoc (.str ['m']) (some (.int 7)) none = .ok (.int 7) ∧
    mrb_json_doc_fetch exObjDoc (.str ['m']) none (some (fun _ => .int 9)) =
      .ok (.int 9) ∧
    mrb_json_doc_fetch exObjDoc (.str ['m']) none none = .error .keyError ∧
    mrb_json_doc_fetch exObjDoc (.int 5) (some (.int 7)) (some (fun _ => .int 9)) =
      .ok (.int 7) ∧
    mrb_json_doc_fetch exObjDoc (.int 5) none (some (fun _ => .int 9)) = .ok (.int 9) ∧
    mrb_json_doc_fetch exObjDoc (.int 5) none none = .error .indexError ∧
    mrb_json_doc_aref exObjDoc (.str ['m']) = .ok .nil :=
  ⟨⟨rfl, rfl, rfl, rfl, rfl⟩,
    c3_fetch_miss_priority exObjDoc ['m'] 5 (.int 7) (fun _ => .int 9)
      rfl .noSuchField rfl rfl .incorrectType rfl rfl⟩

/-- C4 counterexample: the claim says a NavigationMiss yields an empty
collection, but the source's result handling maps every NavigationMiss
code to nil, which is not the empty array. -/
theorem c4_miss_yields_nil_counterexample :
    wildcardFinish (.error .noSuchField) = .ok .nil ∧
    (Except.ok (.nil : RValue) : Except RubyError RValue) ≠ .ok (.ary []) := by
  exact ⟨rfl, by simp⟩

/-- C4 (amended): a genuine engine failure (any non-NavigationMiss code)
aborts `at_path_with_wildcard` immediately — the raised error carries no
partial collection; a resolution that succeeds with no matches yields the
empty collection; a NavigationMiss yields the absence value nil; and the
spec's example `a.*.x` over `a ↦ [x ↦ 1, x ↦ 2, x ↦ 3]` yields
`[1, 2, 3]` in document order. -/
theorem c4_wildcard_failure_handling :
    (∀ e, is_lookup_miss e = false → wildcardFinish (.error e) = .error (.engine e)) ∧
    (∀ e, is_lookup_miss e = true → wildcardFinish (.error e) = .ok .nil) ∧
    wildcardFinish (.ok []) = .ok (.ary []) ∧
    mrb_json_doc_at_path_with_wildcard wildcardExampleDoc ['a', '.', '*', '.', 'x'] =
      .ok (.ary [.int 1, .int 2, .int 3]) := by
  refine ⟨?_, ?_, rfl, rfl⟩
  · intro e he
    simp [wildcardFinish, he]
  · intro e he
    simp [wildcardFinish, he]

/-- C4 witness: a genuine tape error aborts with that error; a miss code
yields nil. -/
theorem c4_wildcard_failure_handling_witness :
    (is_lookup_miss .tapeError = false ∧ is_lookup_miss .noSuchField = true) ∧
    wildcardFinish (.error .tapeError) = .error (.engine .tapeError) ∧
    wildcardFinish (.error .noSuchField) = .ok .nil :=
  ⟨⟨by decide, by decide⟩,
    c4_wildcard_failure_handling.1 .tapeError (by decide),
    c4_wildcard_failure_handling.2.1 .noSuchField (by decide)⟩

/-- C5: in non-debug builds `need_allocation` decides zero-copy is safe
(returns `false`) exactly when the final byte plus padding stays within
its page or the capacity already covers length plus padding; in debug
builds it always decides to copy. -/
theorem c5_need_allocation_decision (addr len capa pagesize : Nat)
    (_hpage : 0 < pagesize) (_hlen : 1 ≤ len) :
    (need_allocation false addr len capa pagesize = false ↔
      ((addr + len - 1) % pagesize + SIMDJSON_PADDING < pagesize ∨
        len + SIMDJSON_PADDING ≤ capa)) ∧
    need_allocation true addr len capa pagesize = true := by
  constructor
  · have hdef : need_allocation false addr len capa pagesize =
        (if (addr + len - 1) % pagesize + SIMDJSON_PADDING < pagesize then false
         else if capa ≥ len + SIMDJSON_PADDING then false else true) := rfl
    rw [hdef]
    split_ifs with h1 h2
    · simp [h1]
    · simp
      omega
    · simp
      omega
  · rfl

/-- C5 witness: a one-byte buffer far from its page end is zero-copy safe
without extra capacity; debug builds still copy. -/
theorem c5_need_allocation_decision_witness :
    ((0 : Nat) < 4096 ∧ (1 : Nat) ≤ 1) ∧
    ((need_allocation false 0 1 0 4096 = false ↔
      ((0 + 1 - 1) % 4096 + SIMDJSON_PADDING < 4096 ∨ 1 + SIMDJSON_PADDING ≤ 0)) ∧
     need_allocation true 0 1 0 4096 = true) :=
  ⟨⟨by decide, by decide⟩,
    c5_need_allocation_decision 0 1 0 4096 (by decide) (by decide)⟩

/-- C6: with zero-copy parsing disabled, an unfrozen host string whose
capacity already covers length plus padding is handed to the engine as a
view over its own bytes without being frozen — the final branch of
`simdjson_safe_view_from_mrb_string` omits the freeze that every sibling
branch performs (shown by the same string under the zero-copy flag, which
is frozen). -/
theorem c6_capacity_branch_skips_freeze :
    simdjson_safe_view_from_mrb_string false false 4096 ⟨0, 1, 65, false⟩ =
      .ok ⟨.ownBytes, ⟨0, 1, 65, false⟩, 1, 65⟩ ∧
    simdjson_safe_view_from_mrb_string true false 4096 ⟨0, 1, 65, false⟩ =
      .ok ⟨.ownBytes, ⟨0, 1, 65, true⟩, 1, 65⟩ := by
  constructor <;> rfl

/-- C7: the visitor-less materializing branch of `object_each` silently
skips a field whose extraction reports a non-NavigationMiss engine error
(here `TAPE_ERROR`) and returns the partial hash, while the visitor branch
of the same entry point raises that error — the claim's "every other error
category always propagates, including per-field during object
enumeration/materialization" fails on the materializing branch. -/
theorem c7_object_each_swallows_field_error :
    objectEachCollect [.ok (['a'], .int 1), .error .tapeError] =
      .ok (.hash [(.str ['a'], .int 1)]) ∧
    is_lookup_miss .tapeError = false ∧
    objectEachVisit [.ok (['a'], .int 1), .error .tapeError] =
      .error (.engine .tapeError) := by
  exact ⟨rfl, by decide, rfl⟩

/-- C8: the input text 9223372036854775808 (2^63) parses to the exact
integer — classified on the unsigned path, neither rounded to a double
nor wrapped negative — and dumps back to the same text. -/
theorem c8_two_pow_63_roundtrip :
    JSON.parse ("9223372036854775808".data) = .ok (.int 9223372036854775808) ∧
    mrb_json_dump (.int 9223372036854775808) = .ok ("9223372036854775808".data) ∧
    classifyIntMag 9223372036854775808 = .unsignedInteger ∧
    (9223372036854775808 : Int) ≠ -9223372036854775808 := by
  exact ⟨rfl, rfl, by decide, by decide⟩

/-- C9 counterexample: `[]` with an integer index does not return the
addressed value (or nil) — the `"S"` argument format raises
`E_TYPE_ERROR` before any lookup, even on an array document whose index 0
exists. -/
theorem c9_aref_integer_counterexample :
    mrb_json_doc_aref exAryDoc (.int 0) = .error .typeError ∧
    (Except.error .typeError : Except RubyError RValue) ≠ .ok (.int 10) ∧
    (Except.error .typeError : Except RubyError RValue) ≠ .ok .nil := by
  exact ⟨rfl, by simp, by simp⟩

/-- C9 (amended): `[]` accepts a string key and returns the addressed
value, or nil when it is absent (NavigationMiss); any non-string argument
— including an integer index — raises `E_TYPE_ERROR` (indexed access goes
through `fetch`/`at` instead). -/
theorem c9_aref_string_key_only (d : DocBinding) (k : List Char)
    (halive : d.cell.alive = true) :
    (∀ v, engineKeyLookup d.cell.root k = .ok v →
      mrb_json_doc_aref d (.str k) = .ok v) ∧
    (∀ e, engineKeyLookup d.cell.root k = .error e → is_lookup_miss e = true →
      mrb_json_doc_aref d (.str k) = .ok .nil) ∧
    (∀ arg, (∀ s, arg ≠ .str s) → mrb_json_doc_aref d arg = .error .typeError) := by
  refine ⟨?_, ?_, ?_⟩
  · intro v hv
    simp [mrb_json_doc_aref, navigate, mrb_json_doc_get, halive, hv]
  · intro e he hm
    simp [mrb_json_doc_aref, navigate, mrb_json_doc_get, halive, he, hm]
  · intro arg harg
    cases arg with
    | str s => exact absurd rfl (harg s)
    | nil => rfl
    | bool b => rfl
    | int n => rfl
    | float m e => rfl
    | sym s => rfl
    | ary l => rfl
    | hash ps => rfl
    | other t => rfl

/-- C9 witness: the amended behavior evaluated on a concrete object
document with a present key. -/
theorem c9_aref_string_key_only_witness :
    (exObjDoc.cell.alive = true ∧
      engineKeyLookup exObjDoc.cell.root ['a'] = .ok (.int 1)) ∧
    mrb_json_doc_aref exObjDoc (.str ['a']) = .ok (.int 1) :=
  ⟨⟨rfl, rfl⟩, (c9_aref_string_key_only exObjDoc ['a'] rfl).1 (.int 1) rfl⟩

/-- C10: a value of any mruby type outside the eight handled tags is
serialized without a type error: the default branch stringifies it with
`mrb_obj_as_string` and emits the escaped, quoted JSON string — exactly
the encoding of the corresponding string value. -/
theorem c10_default_type_encodes_as_string (t : List Char) :
    mrb_json_dump (.other t) = .ok (encodeQuoted t) ∧
    jsonEncode (.other t) = jsonEncode (.str t) ∧
    encodeQuoted t = '"' :: (escStr t ++ ['"']) := by
  exact ⟨rfl, rfl, rfl⟩
